import Mathlib

/-!
Verification of the tree mutation engine of the TreeviewComponent repository
(src/types.ts, src/mockData.ts / TreeView.tsx).

The data model and every operation below are shallow embeddings of the
TypeScript source.  JavaScript objects become an inductive node type, the
three-state `children` field (`undefined` / `true` / array) becomes
`ChildrenState`, and JavaScript truthiness of nullable string ids is made
explicit (`null` and the empty string are falsy).  Array `filter(..).map(..)`
pipelines are rendered as the equivalent single-pass recursions, element by
element, so that each branch of the Lean definition corresponds to one branch
of the source.
-/

/-- The three states of `ITreeNode.children` in src/types.ts:
`absent` renders `undefined` (no children, nothing to load), `unloaded`
renders the literal `true` ("has children, but not loaded yet"), and
`loaded cs` renders an array of child nodes. -/
inductive ChildrenState (α : Type) : Type where
  | absent : ChildrenState α
  | unloaded : ChildrenState α
  | loaded (cs : List α) : ChildrenState α

/-- `ITreeNode` from src/types.ts.  The optional booleans `isExpanded` and
`hasChildren` are represented as `Bool` (the source only ever reads them
truthily, so `undefined` coincides with `false`). -/
inductive ITreeNode : Type where
  | mk (id name : String) (children : ChildrenState ITreeNode)
       (isExpanded hasChildren : Bool) (parentId : Option String) : ITreeNode

/-- `TreeData` from src/types.ts: an ordered sequence of root nodes. -/
abbrev TreeData := List ITreeNode

/-- `DragItem` from src/types.ts. -/
structure DragItem where
  id : String
  parentId : Option String

/-- The drop position carried by a drop event: 'above' | 'below' | 'child'. -/
inductive DropPos : Type where
  | above : DropPos
  | below : DropPos
  | child : DropPos

def ITreeNode.id : ITreeNode → String
  | ITreeNode.mk i _ _ _ _ _ => i

def ITreeNode.name : ITreeNode → String
  | ITreeNode.mk _ nm _ _ _ _ => nm

def ITreeNode.children : ITreeNode → ChildrenState ITreeNode
  | ITreeNode.mk _ _ c _ _ _ => c

def ITreeNode.isExpanded : ITreeNode → Bool
  | ITreeNode.mk _ _ _ e _ _ => e

def ITreeNode.hasChildren : ITreeNode → Bool
  | ITreeNode.mk _ _ _ _ h _ => h

def ITreeNode.parentId : ITreeNode → Option String
  | ITreeNode.mk _ _ _ _ _ _p => _p

/-- The object spread `{ ...node, parentId: pid }` used throughout the
source when re-parenting a node. -/
def withParentId (n : ITreeNode) (pid : Option String) : ITreeNode :=
  match n with
  | ITreeNode.mk i nm c e h _ => ITreeNode.mk i nm c e h pid

/-- The object spread `{ ...node, children: cs, hasChildren: hc }` used by
`removeNodeFromTree` and by the sibling-splice branch of `handleDrop`. -/
def withChildrenHasChildren (n : ITreeNode) (c : ChildrenState ITreeNode) (hc : Bool) : ITreeNode :=
  match n with
  | ITreeNode.mk i nm _ e _ _p => ITreeNode.mk i nm c e hc _p

/-- `Array.isArray(parentNode.children) ? parentNode.children : []`: the
coercion of an absent/unloaded children state to an empty sequence. -/
def childrenArray : ChildrenState ITreeNode → List ITreeNode
  | ChildrenState.loaded cs => cs
  | _ => []

/-- The updater closure shared by `addNodeToTree` (mockData.ts lines 148-156)
and the drop-as-child branch of `handleDrop` (lines 300-308):
`{ ...parentNode, children: [...childrenArray, { ...newNode, parentId:
parentNode.id }], hasChildren: true, isExpanded: true }`. -/
def appendChildUpdater (newNode : ITreeNode) (node : ITreeNode) : ITreeNode :=
  match node with
  | ITreeNode.mk i nm c _ _ _p =>
    ITreeNode.mk i nm
      (ChildrenState.loaded (childrenArray c ++ [withParentId newNode (some i)]))
      true true _p

/-- `NodeLocation` from TreeView.tsx. -/
structure NodeLoc where
  node : ITreeNode
  parent : Option ITreeNode
  index : Nat
  siblings : List ITreeNode

/-- The indexed `for` loop inside `findNodeAndLocation`: scans `tl` with the
running index `k`, descending into a node's children only when they are a
loaded array and the node is expanded
(`node.children && Array.isArray(node.children) && node.isExpanded`). -/
def findLoop : TreeData → String → Option ITreeNode → List ITreeNode → Nat → Option NodeLoc
  | [], _, _, _, _ => none
  | node :: rest, nodeId, parent, siblings, k =>
    if node.id = nodeId then some ⟨node, parent, k, siblings⟩
    else
      match (match node with
             | ITreeNode.mk _ _ (ChildrenState.loaded cs) true _ _ =>
               findLoop cs nodeId (some node) cs 0
             | _ => none) with
      | some found => some found
      | none => findLoop rest nodeId parent siblings (k + 1)

/-- `findNodeAndLocation` (TreeView.tsx lines 110-124).  The guard
`if (!nodeId) return null` fires for `null` and for the empty string (both
are falsy in JavaScript); the defaulted parameters are `parent = null` and
`siblings = []`. -/
def findNodeAndLocation (tree : TreeData) (nodeId : Option String) : Option NodeLoc :=
  match nodeId with
  | none => none
  | some s => if s = "" then none else findLoop tree s none [] 0

/-- `updateNodeInTree` (lines 127-140): maps over the sequence, applying the
updater at an id match and otherwise rebuilding every node that has a loaded
children array around the recursively updated children. -/
def updateNodeInTree : TreeData → String → (ITreeNode → ITreeNode) → TreeData
  | [], _, _ => []
  | node :: rest, nodeId, updater =>
    (if node.id = nodeId then updater node
     else match node with
       | ITreeNode.mk i nm (ChildrenState.loaded cs) e h _p =>
         ITreeNode.mk i nm (ChildrenState.loaded (updateNodeInTree cs nodeId updater)) e h _p
       | _ => node) :: updateNodeInTree rest nodeId updater

/-- `addNodeToTree` (lines 143-157). -/
def addNodeToTree (tree : TreeData) (parentId : Option String) (newNode : ITreeNode) : TreeData :=
  match parentId with
  | none => tree ++ [withParentId newNode none]
  | some pid => updateNodeInTree tree pid (appendChildUpdater newNode)

/-- `removeNodeFromTree` (lines 160-173): `filter` out the target at this
level, then rebuild every surviving node with a loaded children array around
the recursively filtered children, recomputing `hasChildren` from the
post-removal length.  The `filter(..).map(..)` pipeline is rendered as one
element-wise recursion. -/
def removeNodeFromTree : TreeData → String → TreeData
  | [], _ => []
  | node :: rest, nodeIdToRemove =>
    if node.id = nodeIdToRemove then removeNodeFromTree rest nodeIdToRemove
    else
      (match node with
       | ITreeNode.mk i nm (ChildrenState.loaded cs) e _ _p =>
         let updatedChildren := removeNodeFromTree cs nodeIdToRemove
         ITreeNode.mk i nm (ChildrenState.loaded updatedChildren) e
           (decide (0 < updatedChildren.length)) _p
       | _ => node) :: removeNodeFromTree rest nodeIdToRemove

/-- The inner `findDescendant` closure of `isAncestor` (lines 177-185): an
unconditional depth-first search of loaded children for the descendant id. -/
def findDescendant : TreeData → String → Bool
  | [], _ => false
  | node :: rest, descendantId =>
    if node.id = descendantId then true
    else
      (match node with
       | ITreeNode.mk _ _ (ChildrenState.loaded cs) _ _ _ => findDescendant cs descendantId
       | _ => false)
      || findDescendant rest descendantId

/-- `isAncestor` (lines 176-191): locates the candidate ancestor via the
expansion-gated `findNodeAndLocation`, requires its children to be a loaded
array, then searches those children unconditionally. -/
def isAncestor (ancestorId descendantId : String) (nodes : TreeData) : Bool :=
  match findNodeAndLocation nodes (some ancestorId) with
  | none => false
  | some loc =>
    match loc.node.children with
    | ChildrenState.loaded cs => findDescendant cs descendantId
    | _ => false

/-- The `findNodeDeepCopy` closure of `handleDrop` (lines 270-279): an
unconditional depth-first search returning the node; the JSON deep copy is
the identity on the pure value. -/
def findNodeDeepCopy : TreeData → String → Option ITreeNode
  | [], _ => none
  | node :: rest, i =>
    if node.id = i then some node
    else
      match (match node with
             | ITreeNode.mk _ _ (ChildrenState.loaded cs) _ _ _ => findNodeDeepCopy cs i
             | _ => none) with
      | some found => some found
      | none => findNodeDeepCopy rest i

/-- `newSiblings.splice(insertIndex, 0, x)`: inserts `x` at the index,
clamping to the end of the list as JavaScript `splice` does. -/
def spliceInsert : List ITreeNode → Nat → ITreeNode → List ITreeNode
  | l, 0, x => x :: l
  | [], _ + 1, x => [x]
  | a :: l, n + 1, x => a :: spliceInsert l n x

/-- JavaScript truthiness of a nullable string id: `null` and `""` are
falsy. -/
def truthyId : Option String → Bool
  | none => false
  | some s => s != ""

def isChildPos : DropPos → Bool
  | DropPos.child => true
  | _ => false

/-- The state-updater body of `handleDrop` (lines 268-342): the new tree
value computed from the previous one once an active dragged item passed the
self-drop guard. -/
def handleDropTree (tree : TreeData) (dragged : DragItem) (targetNodeId : Option String)
    (dropPosition : DropPos) : TreeData :=
  match findNodeDeepCopy tree dragged.id with
  | none => tree
  | some draggedNode =>
    let ancestorGuard : Bool :=
      match targetNodeId with
      | some tid => (tid != "") && isAncestor dragged.id tid tree
      | none => false
    if ancestorGuard then tree
    else
      let treeAfterRemoval := removeNodeFromTree tree dragged.id
      let nodeToInsert := draggedNode
      if isChildPos dropPosition && truthyId targetNodeId then
        match targetNodeId with
        | some tid =>
          (match findNodeAndLocation treeAfterRemoval (some tid) with
           | some _ => updateNodeInTree treeAfterRemoval tid (appendChildUpdater nodeToInsert)
           | none => treeAfterRemoval)
        | none => treeAfterRemoval
      else
        match targetNodeId with
        | some tid =>
          if tid = "" then
            spliceInsert treeAfterRemoval treeAfterRemoval.length (withParentId nodeToInsert none)
          else
            match findNodeAndLocation treeAfterRemoval (some tid) with
            | some loc =>
              let newParentId : Option String :=
                match loc.parent with
                | some par => if par.id = "" then none else some par.id
                | none => none
              let newSiblings : List ITreeNode :=
                match newParentId with
                | none => treeAfterRemoval
                | some _ =>
                  match loc.parent with
                  | some par => childrenArray par.children
                  | none => []
              let insertIndex : Nat :=
                match dropPosition with
                | DropPos.above => loc.index
                | _ => loc.index + 1
              let spliced := spliceInsert newSiblings insertIndex (withParentId nodeToInsert newParentId)
              (match newParentId with
               | some pid =>
                 updateNodeInTree treeAfterRemoval pid
                   (fun parentNode =>
                     withChildrenHasChildren parentNode (ChildrenState.loaded spliced) true)
               | none => spliced)
            | none =>
              spliceInsert [] 0 (withParentId nodeToInsert none)
        | none =>
          spliceInsert treeAfterRemoval treeAfterRemoval.length (withParentId nodeToInsert none)

/-- `handleDrop` (lines 261-345) as a pure transition on the pair
(tree state, active drag state).  The early guard aborts when there is no
active dragged item or the target equals the dragged item; in every branch
`setDraggedItem(null)` runs, so the resulting drag state is always `none`. -/
def handleDrop (tree : TreeData) (draggedItem : Option DragItem) (targetNodeId : Option String)
    (dropPosition : DropPos) : TreeData × Option DragItem :=
  match draggedItem with
  | none => (tree, none)
  | some dragged =>
    if targetNodeId = some dragged.id then (tree, none)
    else (handleDropTree tree dragged targetNodeId dropPosition, none)

/-! ### Measures and observations used to state the claims -/

/-- Total number of nodes in a tree (roots plus all nodes inside loaded
children, at every depth). -/
def countNodes : TreeData → Nat
  | [] => 0
  | ITreeNode.mk _ _ c _ _ _ :: rest =>
    1 + (match c with | ChildrenState.loaded cs => countNodes cs | _ => 0) + countNodes rest

/-- Size of the subtree rooted at one node: the node itself plus every node
inside its loaded children. -/
def nodeSize (n : ITreeNode) : Nat :=
  1 + (match n.children with | ChildrenState.loaded cs => countNodes cs | _ => 0)

/-- All ids occurring in a tree, in depth-first preorder. -/
def allIds : TreeData → List String
  | [] => []
  | ITreeNode.mk i _ c _ _ _ :: rest =>
    i :: ((match c with | ChildrenState.loaded cs => allIds cs | _ => []) ++ allIds rest)

/-- The ids of the subtree rooted at one node (the node's own id first). -/
def idsOfNode (n : ITreeNode) : List String :=
  n.id :: (match n.children with | ChildrenState.loaded cs => allIds cs | _ => [])

/-- All node values occurring in a tree, in depth-first preorder. -/
def allNodes : TreeData → List ITreeNode
  | [] => []
  | node :: rest =>
    node :: ((match node with
              | ITreeNode.mk _ _ (ChildrenState.loaded cs) _ _ _ => allNodes cs
              | _ => []) ++ allNodes rest)

/-- `hasChildren` consistency: every node in the tree whose children are a
loaded array has `hasChildren` equal to that array being non-empty. -/
def hcOk : TreeData → Bool
  | [] => true
  | ITreeNode.mk _ _ c _ h _ :: rest =>
    (match c with
     | ChildrenState.loaded cs => (h == decide (0 < cs.length)) && hcOk cs
     | _ => true)
    && hcOk rest

/-- Modelled from the claim for the refinement statement about
`findNodeAndLocation`: the ids reachable from a root through a chain of
ancestors each of which is expanded and has loaded children (the node itself
need not be expanded). -/
def visibleIds : TreeData → List String
  | [] => []
  | ITreeNode.mk i _ c e _ _ :: rest =>
    i :: ((match c, e with
           | ChildrenState.loaded cs, true => visibleIds cs
           | _, _ => []) ++ visibleIds rest)

/-- Allocation-instrumented `updateNodeInTree`: each returned root entry is
paired with `true` when the source allocates a fresh object for it (the
`updater(node)` branch or the `{ ...node, children: ... }` rebuild) and with
`false` when the source returns the original reference (`return node`).
Erasing the flags recovers `updateNodeInTree` exactly
(`updateNodeInTreeI_fst` below). -/
def updateNodeInTreeI : TreeData → String → (ITreeNode → ITreeNode) → List (ITreeNode × Bool)
  | [], _, _ => []
  | node :: rest, nodeId, updater =>
    (if node.id = nodeId then (updater node, true)
     else match node with
       | ITreeNode.mk i nm (ChildrenState.loaded cs) e h _p =>
         (ITreeNode.mk i nm
            (ChildrenState.loaded ((updateNodeInTreeI cs nodeId updater).map Prod.fst)) e h _p,
          true)
       | _ => (node, false)) :: updateNodeInTreeI rest nodeId updater

/-! ### Formal readings of the claims that turn out to be false -/

/-- C3 as stated: for every id present in the tree, every root entry whose
subtree does not contain the target id (hence lies off the root-to-target
path) is returned by the no-allocation branch, i.e. is the identical prior
value. -/
def UpdateLocalityClaim : Prop :=
  ∀ (t : TreeData) (i : String) (f : ITreeNode → ITreeNode) (k : Nat) (n : ITreeNode),
    i ∈ allIds t → t[k]? = some n → i ∉ idsOfNode n →
    (updateNodeInTreeI t i f)[k]? = some (n, false)

/-- C4 as stated: removing an id absent from the tree returns a tree
structurally equal to the input, for every tree. -/
def RemoveAbsentNoopClaim : Prop :=
  ∀ (t : TreeData) (i : String), i ∉ allIds t → removeNodeFromTree t i = t

/-- C5 as stated: for every tree and every node X present in it, removal of
X's id removes exactly X's subtree, and the node count drops by the size of
X's subtree. -/
def RemoveCascadeClaim : Prop :=
  ∀ (t : TreeData) (x : ITreeNode), x ∈ allNodes t →
    countNodes (removeNodeFromTree t x.id) = countNodes t - nodeSize x ∧
    ∀ j, j ∈ allIds (removeNodeFromTree t x.id) ↔ (j ∈ allIds t ∧ j ∉ idsOfNode x)

/-- C7 as stated: for every non-null id, `findNodeAndLocation` returns a
location exactly when the id is reachable through a chain of expanded
loaded ancestors. -/
def FindVisibleClaim : Prop :=
  ∀ (t : TreeData) (s : String),
    (findNodeAndLocation t (some s)).isSome = true ↔ s ∈ visibleIds t

/-- C10 as stated: every returned location satisfies
`siblings[index] = node`, and when the parent is null the siblings sequence
is the root sequence of the searched tree. -/
def LocationConsistentClaim : Prop :=
  ∀ (t : TreeData) (i : Option String) (loc : NodeLoc),
    findNodeAndLocation t i = some loc →
    loc.siblings[loc.index]? = some loc.node ∧
    (loc.parent = none → loc.siblings = t)

/-! ### Concrete trees used in counterexamples, failing inputs and witnesses -/

/-- Leaf with id "c", a child of "b" in `exT3`. -/
def exC3c : ITreeNode := ITreeNode.mk "c" "C" (ChildrenState.loaded []) false false (some "b")

/-- Root "b" with one loaded child; it lies off the root-to-"a" path. -/
def exC3b : ITreeNode := ITreeNode.mk "b" "B" (ChildrenState.loaded [exC3c]) false true none

/-- Root "a" with no children state; the update target. -/
def exC3a : ITreeNode := ITreeNode.mk "a" "A" ChildrenState.absent false false none

/-- Two-root tree for the C3 counterexample. -/
def exT3 : TreeData := [exC3a, exC3b]

/-- A node with loaded-empty children but a stale `hasChildren = true`. -/
def exC4a : ITreeNode := ITreeNode.mk "a" "A" (ChildrenState.loaded []) false true none

/-- One-root tree for the C4 counterexample. -/
def exT4 : TreeData := [exC4a]

/-- First root of the C5 counterexample tree: a leaf with id "d". -/
def exC5a : ITreeNode := ITreeNode.mk "d" "D" ChildrenState.absent false false none

/-- Second root of the C5 counterexample tree: the same id "d" again, with
one loaded child. -/
def exC5b : ITreeNode :=
  ITreeNode.mk "d" "E"
    (ChildrenState.loaded [ITreeNode.mk "e" "E1" ChildrenState.absent false false (some "d")])
    false true none

/-- Tree with a duplicated id, for the C5 counterexample. -/
def exT5 : TreeData := [exC5a, exC5b]

/-- A root whose id is the empty string, for the C7 counterexample. -/
def exC7a : ITreeNode := ITreeNode.mk "" "A" ChildrenState.absent false false none

/-- One-root tree for the C7 counterexample. -/
def exT7 : TreeData := [exC7a]

/-- A plain root node, for the C10 counterexample. -/
def exC10a : ITreeNode := ITreeNode.mk "a" "A" ChildrenState.absent false false none

/-- One-root tree for the C10 counterexample. -/
def exT10 : TreeData := [exC10a]

/-- Grandchild "d" of the C1 failing input: a descendant of the dragged
node "a". -/
def exC1d : ITreeNode := ITreeNode.mk "d" "D" (ChildrenState.loaded []) false false (some "a")

/-- Dragged node "a" of the C1 failing input, holding "d". -/
def exC1a : ITreeNode := ITreeNode.mk "a" "A" (ChildrenState.loaded [exC1d]) false true (some "r")

/-- Collapsed root "r" of the C1 failing input: `isExpanded = false`, so the
expansion-gated lookup never reaches "a". -/
def exC1r : ITreeNode := ITreeNode.mk "r" "R" (ChildrenState.loaded [exC1a]) false true none

/-- Failing input tree for C1. -/
def exT1 : TreeData := [exC1r]

/-- Dragged root "x" of the C2 failing input. -/
def exC2x : ITreeNode := ITreeNode.mk "x" "X" (ChildrenState.loaded []) false false none

/-- Bystander root "y" of the C2 failing input; it is destroyed by the drop. -/
def exC2y : ITreeNode := ITreeNode.mk "y" "Y" (ChildrenState.loaded []) false false none

/-- Failing input tree for C2. -/
def exT2 : TreeData := [exC2x, exC2y]

/-- Child "b" of the C8 scenario tree, directly before "c". -/
def exC8b : ITreeNode := ITreeNode.mk "b" "B" (ChildrenState.loaded []) false false (some "a")

/-- Child "c" of the C8 scenario tree. -/
def exC8c : ITreeNode := ITreeNode.mk "c" "C" (ChildrenState.loaded []) false false (some "a")

/-- Expanded root "a" of the C8 scenario tree with loaded children [B, C]. -/
def exC8a : ITreeNode := ITreeNode.mk "a" "A" (ChildrenState.loaded [exC8b, exC8c]) true true none

/-- The C8 scenario tree `[A[B, C]]`. -/
def exT8 : TreeData := [exC8a]

/-- An unloaded parent node used by the C6 witness. -/
def exC6a : ITreeNode := ITreeNode.mk "a" "A" ChildrenState.unloaded false true none

/-- One-root tree for the C6 witness. -/
def exT6 : TreeData := [exC6a]

/-- The fully formed new node added in the C6 witness. -/
def exC6n : ITreeNode := ITreeNode.mk "x" "X" (ChildrenState.loaded []) false false none

/-! ### Basic lemmas about the measures -/

@[simp]
theorem ITreeNode.id_mk (i nm : String) (c : ChildrenState ITreeNode) (e h : Bool)
    (p : Option String) : (ITreeNode.mk i nm c e h p).id = i := rfl

@[simp]
theorem ITreeNode.name_mk (i nm : String) (c : ChildrenState ITreeNode) (e h : Bool)
    (p : Option String) : (ITreeNode.mk i nm c e h p).name = nm := rfl

@[simp]
theorem ITreeNode.children_mk (i nm : String) (c : ChildrenState ITreeNode) (e h : Bool)
    (p : Option String) : (ITreeNode.mk i nm c e h p).children = c := rfl

@[simp]
theorem ITreeNode.isExpanded_mk (i nm : String) (c : ChildrenState ITreeNode) (e h : Bool)
    (p : Option String) : (ITreeNode.mk i nm c e h p).isExpanded = e := rfl

@[simp]
theorem ITreeNode.hasChildren_mk (i nm : String) (c : ChildrenState ITreeNode) (e h : Bool)
    (p : Option String) : (ITreeNode.mk i nm c e h p).hasChildren = h := rfl

@[simp]
theorem ITreeNode.parentId_mk (i nm : String) (c : ChildrenState ITreeNode) (e h : Bool)
    (p : Option String) : (ITreeNode.mk i nm c e h p).parentId = p := rfl

theorem countNodes_cons (n : ITreeNode) (rest : TreeData) :
    countNodes (n :: rest) = nodeSize n + countNodes rest := by
  obtain ⟨i, nm, c, e, h, p⟩ := n
  cases c <;> simp [countNodes, nodeSize]

theorem nodeSize_pos (n : ITreeNode) : 1 ≤ nodeSize n := by
  simp [nodeSize]

theorem allIds_cons (n : ITreeNode) (rest : TreeData) :
    allIds (n :: rest) = idsOfNode n ++ allIds rest := by
  obtain ⟨i, nm, c, e, h, p⟩ := n
  cases c <;> simp [allIds, idsOfNode]

theorem allNodes_cons (n : ITreeNode) (rest : TreeData) :
    allNodes (n :: rest)
      = n :: ((match n.children with
               | ChildrenState.loaded cs => allNodes cs
               | _ => []) ++ allNodes rest) := by
  obtain ⟨i, nm, c, e, h, p⟩ := n
  cases c <;> simp [allNodes]

/-- Induction over trees: to prove a property of every tree it suffices to
prove it for the empty sequence and for a cons, given it for the loaded
children of the head and for the tail. -/
theorem treeInd (P : TreeData → Prop) (hnil : P [])
    (hcons : ∀ (n : ITreeNode) (rest : TreeData),
      (∀ cs, n.children = ChildrenState.loaded cs → P cs) → P rest → P (n :: rest))
    (t : TreeData) : P t := by
  generalize hcount : countNodes t = k
  induction k using Nat.strong_induction_on generalizing t with
  | _ k IH =>
    match t with
    | [] => exact hnil
    | n :: rest =>
      apply hcons
      · intro cs hcs
        apply IH (countNodes cs) _ cs rfl
        have h1 := countNodes_cons n rest
        have h2 : nodeSize n = 1 + countNodes cs := by
          simp [nodeSize, hcs]
        omega
      · apply IH (countNodes rest) _ rest rfl
        have h1 := countNodes_cons n rest
        have h2 := nodeSize_pos n
        omega

theorem length_idsOfNode_aux :
    ∀ t : TreeData, (allIds t).length = countNodes t := by
  intro t
  induction t using treeInd with
  | hnil => simp [allIds, countNodes]
  | hcons n rest ihc ihr =>
    obtain ⟨i, nm, c, e, h, p⟩ := n
    cases c with
    | loaded cs =>
      have := ihc cs rfl
      simp [allIds, countNodes, this, ihr]
      omega
    | absent => simp [allIds, countNodes, ihr]; omega
    | unloaded => simp [allIds, countNodes, ihr]; omega

theorem length_allIds (t : TreeData) : (allIds t).length = countNodes t :=
  length_idsOfNode_aux t

theorem length_idsOfNode (n : ITreeNode) : (idsOfNode n).length = nodeSize n := by
  obtain ⟨i, nm, c, e, h, p⟩ := n
  cases c <;> simp [idsOfNode, nodeSize, length_allIds] <;> omega

/-! ### Lemmas about the unconditional search `findNodeDeepCopy` -/


theorem findNodeDeepCopy_none_iff (t : TreeData) (i : String) :
    findNodeDeepCopy t i = none ↔ i ∉ allIds t := by
  induction t using treeInd with
  | hnil => simp [findNodeDeepCopy, allIds]
  | hcons n rest ihc ihr =>
    obtain ⟨a, nm, c, e, h, p⟩ := n
    cases c with
    | loaded cs =>
      by_cases hai : a = i
      · subst hai
        simp [findNodeDeepCopy, allIds]
      · have hia : ¬ i = a := fun hh => hai hh.symm
        have hc := ihc cs rfl
        rcases hfc : findNodeDeepCopy cs i with _ | x
        · simp [findNodeDeepCopy, allIds, hai, hia, hfc, ihr, hc.mp hfc]
        · have hmem : i ∈ allIds cs := by
            by_contra hmem
            rw [hc.mpr hmem] at hfc
            cases hfc
          simp [findNodeDeepCopy, allIds, hai, hfc, hmem]
    | absent =>
      by_cases hai : a = i
      · subst hai
        simp [findNodeDeepCopy, allIds]
      · have hia : ¬ i = a := fun hh => hai hh.symm
        simp [findNodeDeepCopy, allIds, hai, hia, ihr]
    | unloaded =>
      by_cases hai : a = i
      · subst hai
        simp [findNodeDeepCopy, allIds]
      · have hia : ¬ i = a := fun hh => hai hh.symm
        simp [findNodeDeepCopy, allIds, hai, hia, ihr]

theorem findNodeDeepCopy_mem (t : TreeData) (i : String) (x : ITreeNode)
    (hx : findNodeDeepCopy t i = some x) : i ∈ allIds t := by
  by_contra hmem
  rw [(findNodeDeepCopy_none_iff t i).mpr hmem] at hx
  cases hx

theorem findNodeDeepCopy_id (t : TreeData) (i : String) (x : ITreeNode)
    (hx : findNodeDeepCopy t i = some x) : x.id = i := by
  induction t using treeInd with
  | hnil => simp [findNodeDeepCopy] at hx
  | hcons n rest ihc ihr =>
    obtain ⟨a, nm, c, e, h, p⟩ := n
    cases c with
    | loaded cs =>
      by_cases hai : a = i
      · subst hai
        simp [findNodeDeepCopy] at hx
        rw [← hx]
        simp
      · rcases hfc : findNodeDeepCopy cs i with _ | y
        · simp [findNodeDeepCopy, hai, hfc] at hx
          exact ihr hx
        · simp [findNodeDeepCopy, hai, hfc] at hx
          subst hx
          exact ihc cs rfl hfc
    | absent =>
      by_cases hai : a = i
      · subst hai
        simp [findNodeDeepCopy] at hx
        rw [← hx]
        simp
      · simp [findNodeDeepCopy, hai] at hx
        exact ihr hx
    | unloaded =>
      by_cases hai : a = i
      · subst hai
        simp [findNodeDeepCopy] at hx
        rw [← hx]
        simp
      · simp [findNodeDeepCopy, hai] at hx
        exact ihr hx

theorem findNodeDeepCopy_sublist (t : TreeData) (i : String) (x : ITreeNode)
    (hx : findNodeDeepCopy t i = some x) : (idsOfNode x).Sublist (allIds t) := by
  induction t using treeInd with
  | hnil => simp [findNodeDeepCopy] at hx
  | hcons n rest ihc ihr =>
    obtain ⟨a, nm, c, e, h, p⟩ := n
    rw [allIds_cons]
    cases c with
    | loaded cs =>
      by_cases hai : a = i
      · subst hai
        simp [findNodeDeepCopy] at hx
        rw [← hx]
        exact List.sublist_append_left _ _
      · rcases hfc : findNodeDeepCopy cs i with _ | y
        · simp [findNodeDeepCopy, hai, hfc] at hx
          exact (ihr hx).trans (List.sublist_append_right _ _)
        · simp [findNodeDeepCopy, hai, hfc] at hx
          subst hx
          refine ((ihc cs rfl hfc).trans ?_).trans (List.sublist_append_left _ _)
          simp [idsOfNode]
    | absent =>
      by_cases hai : a = i
      · subst hai
        simp [findNodeDeepCopy] at hx
        rw [← hx]
        exact List.sublist_append_left _ _
      · simp [findNodeDeepCopy, hai] at hx
        exact (ihr hx).trans (List.sublist_append_right _ _)
    | unloaded =>
      by_cases hai : a = i
      · subst hai
        simp [findNodeDeepCopy] at hx
        rw [← hx]
        exact List.sublist_append_left _ _
      · simp [findNodeDeepCopy, hai] at hx
        exact (ihr hx).trans (List.sublist_append_right _ _)

theorem findNodeDeepCopy_size_le (t : TreeData) (i : String) (x : ITreeNode)
    (hx : findNodeDeepCopy t i = some x) : nodeSize x ≤ countNodes t := by
  have hs := (findNodeDeepCopy_sublist t i x hx).length_le
  rwa [length_idsOfNode, length_allIds] at hs

theorem findNodeDeepCopy_cons_self (n : ITreeNode) (rest : TreeData) (i : String)
    (hn : n.id = i) : findNodeDeepCopy (n :: rest) i = some n := by
  obtain ⟨a, nm, c, e, h, p⟩ := n
  simp at hn
  subst hn
  cases c <;> simp [findNodeDeepCopy]

/-! ### Lemmas about removal and update at an absent id -/

theorem allIds_removeNodeFromTree_absent (t : TreeData) (i : String) (hni : i ∉ allIds t) :
    allIds (removeNodeFromTree t i) = allIds t := by
  induction t using treeInd with
  | hnil => simp [removeNodeFromTree]
  | hcons n rest ihc ihr =>
    obtain ⟨a, nm, c, e, h, p⟩ := n
    cases c with
    | loaded cs =>
      simp [allIds] at hni
      obtain ⟨hia, hcs, hrest⟩ := hni
      have hai : ¬ a = i := fun hh => hia hh.symm
      simp [removeNodeFromTree, hai, allIds, ihc cs rfl hcs, ihr hrest]
    | absent =>
      simp [allIds] at hni
      obtain ⟨hia, hrest⟩ := hni
      have hai : ¬ a = i := fun hh => hia hh.symm
      simp [removeNodeFromTree, hai, allIds, ihr hrest]
    | unloaded =>
      simp [allIds] at hni
      obtain ⟨hia, hrest⟩ := hni
      have hai : ¬ a = i := fun hh => hia hh.symm
      simp [removeNodeFromTree, hai, allIds, ihr hrest]

theorem countNodes_removeNodeFromTree_absent (t : TreeData) (i : String) (hni : i ∉ allIds t) :
    countNodes (removeNodeFromTree t i) = countNodes t := by
  rw [← length_allIds, ← length_allIds, allIds_removeNodeFromTree_absent t i hni]

theorem removeNodeFromTree_absent_eq (t : TreeData) (i : String) (hok : hcOk t = true)
    (hni : i ∉ allIds t) : removeNodeFromTree t i = t := by
  induction t using treeInd with
  | hnil => simp [removeNodeFromTree]
  | hcons n rest ihc ihr =>
    obtain ⟨a, nm, c, e, h, p⟩ := n
    cases c with
    | loaded cs =>
      simp [allIds] at hni
      obtain ⟨hia, hcs, hrest⟩ := hni
      have hai : ¬ a = i := fun hh => hia hh.symm
      simp [hcOk] at hok
      obtain ⟨⟨hh, hokcs⟩, hokrest⟩ := hok
      simp [removeNodeFromTree, hai, ihc cs rfl hokcs hcs, ihr hokrest hrest, hh]
    | absent =>
      simp [allIds] at hni
      obtain ⟨hia, hrest⟩ := hni
      have hai : ¬ a = i := fun hh => hia hh.symm
      simp [hcOk] at hok
      simp [removeNodeFromTree, hai, ihr hok hrest]
    | unloaded =>
      simp [allIds] at hni
      obtain ⟨hia, hrest⟩ := hni
      have hai : ¬ a = i := fun hh => hia hh.symm
      simp [hcOk] at hok
      simp [removeNodeFromTree, hai, ihr hok hrest]

theorem updateNodeInTree_absent (t : TreeData) (i : String) (f : ITreeNode → ITreeNode)
    (hni : i ∉ allIds t) : updateNodeInTree t i f = t := by
  induction t using treeInd with
  | hnil => simp [updateNodeInTree]
  | hcons n rest ihc ihr =>
    obtain ⟨a, nm, c, e, h, p⟩ := n
    cases c with
    | loaded cs =>
      simp [allIds] at hni
      obtain ⟨hia, hcs, hrest⟩ := hni
      have hai : ¬ a = i := fun hh => hia hh.symm
      simp [updateNodeInTree, hai, ihc cs rfl hcs, ihr hrest]
    | absent =>
      simp [allIds] at hni
      obtain ⟨hia, hrest⟩ := hni
      have hai : ¬ a = i := fun hh => hia hh.symm
      simp [updateNodeInTree, hai, ihr hrest]
    | unloaded =>
      simp [allIds] at hni
      obtain ⟨hia, hrest⟩ := hni
      have hai : ¬ a = i := fun hh => hia hh.symm
      simp [updateNodeInTree, hai, ihr hrest]

theorem findNodeDeepCopy_updateNodeInTree (t : TreeData) (i : String)
    (f : ITreeNode → ITreeNode) (hf : ∀ q, (f q).id = q.id) (x : ITreeNode)
    (hx : findNodeDeepCopy t i = some x) :
    findNodeDeepCopy (updateNodeInTree t i f) i = some (f x) := by
  induction t using treeInd with
  | hnil => simp [findNodeDeepCopy] at hx
  | hcons n rest ihc ihr =>
    obtain ⟨a, nm, c, e, h, p⟩ := n
    by_cases hai : a = i
    · subst hai
      have hfa : (f (ITreeNode.mk a nm c e h p)).id = a := by
        rw [hf]
        simp
      have hxeq : x = ITreeNode.mk a nm c e h p := by
        cases c <;> simp [findNodeDeepCopy] at hx <;> first | exact hx | exact hx.symm
      rw [hxeq]
      cases c <;> simp [updateNodeInTree, findNodeDeepCopy, hfa] <;>
        exact findNodeDeepCopy_cons_self _ _ _ hfa
    · cases c with
      | loaded cs =>
        rcases hfc : findNodeDeepCopy cs i with _ | y
        · have hcs : i ∉ allIds cs := (findNodeDeepCopy_none_iff cs i).mp hfc
          simp [findNodeDeepCopy, hai, hfc] at hx
          simp [updateNodeInTree, hai, updateNodeInTree_absent cs i f hcs,
            findNodeDeepCopy, hfc, ihr hx]
        · simp [findNodeDeepCopy, hai, hfc] at hx
          subst hx
          simp [updateNodeInTree, hai, findNodeDeepCopy, ihc cs rfl hfc]
      | absent =>
        simp [findNodeDeepCopy, hai] at hx
        simp [updateNodeInTree, hai, findNodeDeepCopy, ihr hx]
      | unloaded =>
        simp [findNodeDeepCopy, hai] at hx
        simp [updateNodeInTree, hai, findNodeDeepCopy, ihr hx]

/-! ### The removal cascade -/

theorem idsOfNode_mk_loaded (a nm : String) (cs : List ITreeNode) (e h : Bool)
    (p : Option String) :
    idsOfNode (ITreeNode.mk a nm (ChildrenState.loaded cs) e h p) = a :: allIds cs := by
  simp [idsOfNode]

theorem idsOfNode_mk_absent (a nm : String) (e h : Bool) (p : Option String) :
    idsOfNode (ITreeNode.mk a nm ChildrenState.absent e h p) = [a] := by
  simp [idsOfNode]

theorem idsOfNode_mk_unloaded (a nm : String) (e h : Bool) (p : Option String) :
    idsOfNode (ITreeNode.mk a nm ChildrenState.unloaded e h p) = [a] := by
  simp [idsOfNode]

theorem nodeSize_mk_loaded (a nm : String) (cs : List ITreeNode) (e h : Bool)
    (p : Option String) :
    nodeSize (ITreeNode.mk a nm (ChildrenState.loaded cs) e h p) = 1 + countNodes cs := by
  simp [nodeSize]

set_option maxHeartbeats 1600000 in
theorem removeCascade_of_find (t : TreeData) (i : String) (x : ITreeNode) :
    (allIds t).Nodup → findNodeDeepCopy t i = some x →
    countNodes (removeNodeFromTree t i) = countNodes t - nodeSize x ∧
    (∀ j, j ∈ allIds (removeNodeFromTree t i) ↔ (j ∈ allIds t ∧ j ∉ idsOfNode x)) := by
  induction t using treeInd with
  | hnil =>
    intro _ hx
    simp [findNodeDeepCopy] at hx
  | hcons n rest ihc ihr =>
    intro hnd hx
    obtain ⟨a, nm, c, e, h, p⟩ := n
    cases c with
    | loaded cs =>
      simp only [allIds] at hnd
      rw [List.nodup_cons] at hnd
      obtain ⟨hamem, hnd2⟩ := hnd
      rw [List.nodup_append] at hnd2
      obtain ⟨hndcs, hndrest, hdisj⟩ := hnd2
      simp only [List.mem_append] at hamem
      push_neg at hamem
      obtain ⟨hacs, harest⟩ := hamem
      by_cases hai : a = i
      · subst hai
        have hxeq : x = ITreeNode.mk a nm (ChildrenState.loaded cs) e h p := by
          simp [findNodeDeepCopy] at hx
          first | exact hx | exact hx.symm
        subst hxeq
        have hrm : removeNodeFromTree
            (ITreeNode.mk a nm (ChildrenState.loaded cs) e h p :: rest) a
            = removeNodeFromTree rest a := by
          simp [removeNodeFromTree]
        have hids := allIds_removeNodeFromTree_absent rest a harest
        have hcnt := countNodes_removeNodeFromTree_absent rest a harest
        constructor
        · rw [hrm, hcnt, countNodes_cons]
          omega
        · intro j
          rw [hrm, hids, allIds_cons, idsOfNode_mk_loaded]
          simp only [List.mem_cons, List.mem_append]
          have e1 : j ∈ allIds rest → ¬ j = a := fun hj hja => harest (hja ▸ hj)
          have e2 : j ∈ allIds rest → j ∉ allIds cs := fun hj hjc => hdisj hjc hj
          tauto
      · have hia : ¬ i = a := fun hh => hai hh.symm
        rcases hfc : findNodeDeepCopy cs i with _ | y
        · -- not inside the children: found in the tail
          have hics : i ∉ allIds cs := (findNodeDeepCopy_none_iff cs i).mp hfc
          simp [findNodeDeepCopy, hai, hfc] at hx
          have hsubx : ∀ j, j ∈ idsOfNode x → j ∈ allIds rest :=
            fun j hj => (findNodeDeepCopy_sublist rest i x hx).subset hj
          have hszx := findNodeDeepCopy_size_le rest i x hx
          have hidscs := allIds_removeNodeFromTree_absent cs i hics
          have hcntcs := countNodes_removeNodeFromTree_absent cs i hics
          obtain ⟨ihcnt, ihiff⟩ := ihr hndrest hx
          have hrm : removeNodeFromTree
              (ITreeNode.mk a nm (ChildrenState.loaded cs) e h p :: rest) i
              = ITreeNode.mk a nm (ChildrenState.loaded (removeNodeFromTree cs i)) e
                  (decide (0 < (removeNodeFromTree cs i).length)) p
                :: removeNodeFromTree rest i := by
            simp [removeNodeFromTree, hai]
          constructor
          · rw [hrm, countNodes_cons, countNodes_cons, ihcnt, nodeSize_mk_loaded,
              nodeSize_mk_loaded, hcntcs]
            omega
          · intro j
            rw [hrm, allIds_cons, allIds_cons, idsOfNode_mk_loaded, idsOfNode_mk_loaded,
              hidscs]
            simp only [List.mem_cons, List.mem_append]
            have e1 := ihiff j
            have e2 : j = a → j ∉ idsOfNode x := by
              rintro rfl hh
              exact harest (hsubx _ hh)
            have e3 : j ∈ allIds cs → j ∉ idsOfNode x := fun hjc hh => hdisj hjc (hsubx _ hh)
            tauto
        · -- found inside the children
          simp [findNodeDeepCopy, hai, hfc] at hx
          subst hx
          have hics : i ∈ allIds cs := findNodeDeepCopy_mem cs i y hfc
          have hirest : i ∉ allIds rest := fun hh => hdisj hics hh
          have hsubx : ∀ j, j ∈ idsOfNode y → j ∈ allIds cs :=
            fun j hj => (findNodeDeepCopy_sublist cs i y hfc).subset hj
          have hszx := findNodeDeepCopy_size_le cs i y hfc
          have hidsrest := allIds_removeNodeFromTree_absent rest i hirest
          have hcntrest := countNodes_removeNodeFromTree_absent rest i hirest
          obtain ⟨ihcnt, ihiff⟩ := ihc cs rfl hndcs hfc
          have hrm : removeNodeFromTree
              (ITreeNode.mk a nm (ChildrenState.loaded cs) e h p :: rest) i
              = ITreeNode.mk a nm (ChildrenState.loaded (removeNodeFromTree cs i)) e
                  (decide (0 < (removeNodeFromTree cs i).length)) p
                :: removeNodeFromTree rest i := by
            simp [removeNodeFromTree, hai]
          constructor
          · rw [hrm, countNodes_cons, countNodes_cons, nodeSize_mk_loaded,
              nodeSize_mk_loaded, ihcnt, hcntrest]
            omega
          · intro j
            rw [hrm, allIds_cons, allIds_cons, idsOfNode_mk_loaded, idsOfNode_mk_loaded,
              hidsrest]
            simp only [List.mem_cons, List.mem_append]
            have e1 := ihiff j
            have e2 : j = a → j ∉ idsOfNode y := by
              rintro rfl hh
              exact hacs (hsubx _ hh)
            have e3 : j ∈ allIds rest → j ∉ idsOfNode y := by
              intro hjr hh
              exact hdisj (hsubx _ hh) hjr
            tauto
    | absent =>
      simp only [allIds] at hnd
      rw [List.nodup_cons] at hnd
      obtain ⟨hamem, hndrest⟩ := hnd
      simp only [List.nil_append] at hamem hndrest
      by_cases hai : a = i
      · subst hai
        have hxeq : x = ITreeNode.mk a nm ChildrenState.absent e h p := by
          simp [findNodeDeepCopy] at hx
          first | exact hx | exact hx.symm
        subst hxeq
        have hrm : removeNodeFromTree
            (ITreeNode.mk a nm ChildrenState.absent e h p :: rest) a
            = removeNodeFromTree rest a := by
          simp [removeNodeFromTree]
        have hids := allIds_removeNodeFromTree_absent rest a hamem
        have hcnt := countNodes_removeNodeFromTree_absent rest a hamem
        constructor
        · rw [hrm, hcnt, countNodes_cons]
          omega
        · intro j
          rw [hrm, hids, allIds_cons, idsOfNode_mk_absent]
          simp only [List.mem_cons, List.mem_append, List.not_mem_nil]
          have e1 : j ∈ allIds rest → ¬ j = a := fun hj hja => hamem (hja ▸ hj)
          tauto
      · have hia : ¬ i = a := fun hh => hai hh.symm
        simp [findNodeDeepCopy, hai] at hx
        have hsubx : ∀ j, j ∈ idsOfNode x → j ∈ allIds rest :=
          fun j hj => (findNodeDeepCopy_sublist rest i x hx).subset hj
        have hszx := findNodeDeepCopy_size_le rest i x hx
        obtain ⟨ihcnt, ihiff⟩ := ihr hndrest hx
        have hrm : removeNodeFromTree
            (ITreeNode.mk a nm ChildrenState.absent e h p :: rest) i
            = ITreeNode.mk a nm ChildrenState.absent e h p :: removeNodeFromTree rest i := by
          simp [removeNodeFromTree, hai]
        constructor
        · rw [hrm, countNodes_cons, countNodes_cons, ihcnt]
          omega
        · intro j
          rw [hrm, allIds_cons, allIds_cons, idsOfNode_mk_absent]
          simp only [List.mem_cons, List.mem_append, List.not_mem_nil]
          have e1 := ihiff j
          have e2 : j = a → j ∉ idsOfNode x := by
            rintro rfl hh
            exact hamem (hsubx _ hh)
          tauto
    | unloaded =>
      simp only [allIds] at hnd
      rw [List.nodup_cons] at hnd
      obtain ⟨hamem, hndrest⟩ := hnd
      simp only [List.nil_append] at hamem hndrest
      by_cases hai : a = i
      · subst hai
        have hxeq : x = ITreeNode.mk a nm ChildrenState.unloaded e h p := by
          simp [findNodeDeepCopy] at hx
          first | exact hx | exact hx.symm
        subst hxeq
        have hrm : removeNodeFromTree
            (ITreeNode.mk a nm ChildrenState.unloaded e h p :: rest) a
            = removeNodeFromTree rest a := by
          simp [removeNodeFromTree]
        have hids := allIds_removeNodeFromTree_absent rest a hamem
        have hcnt := countNodes_removeNodeFromTree_absent rest a hamem
        constructor
        · rw [hrm, hcnt, countNodes_cons]
          omega
        · intro j
          rw [hrm, hids, allIds_cons, idsOfNode_mk_unloaded]
          simp only [List.mem_cons, List.mem_append, List.not_mem_nil]
          have e1 : j ∈ allIds rest → ¬ j = a := fun hj hja => hamem (hja ▸ hj)
          tauto
      · have hia : ¬ i = a := fun hh => hai hh.symm
        simp [findNodeDeepCopy, hai] at hx
        have hsubx : ∀ j, j ∈ idsOfNode x → j ∈ allIds rest :=
          fun j hj => (findNodeDeepCopy_sublist rest i x hx).subset hj
        have hszx := findNodeDeepCopy_size_le rest i x hx
        obtain ⟨ihcnt, ihiff⟩ := ihr hndrest hx
        have hrm : removeNodeFromTree
            (ITreeNode.mk a nm ChildrenState.unloaded e h p :: rest) i
            = ITreeNode.mk a nm ChildrenState.unloaded e h p :: removeNodeFromTree rest i := by
          simp [removeNodeFromTree, hai]
        constructor
        · rw [hrm, countNodes_cons, countNodes_cons, ihcnt]
          omega
        · intro j
          rw [hrm, allIds_cons, allIds_cons, idsOfNode_mk_unloaded]
          simp only [List.mem_cons, List.mem_append, List.not_mem_nil]
          have e1 := ihiff j
          have e2 : j = a → j ∉ idsOfNode x := by
            rintro rfl hh
            exact hamem (hsubx _ hh)
          tauto

/-! ### `hasChildren` normalization by removal -/

theorem hcOk_removeNodeFromTree (t : TreeData) (i : String) :
    hcOk (removeNodeFromTree t i) = true := by
  induction t using treeInd with
  | hnil => simp [removeNodeFromTree, hcOk]
  | hcons n rest ihc ihr =>
    obtain ⟨a, nm, c, e, h, p⟩ := n
    by_cases hai : a = i
    · cases c <;> simp [removeNodeFromTree, hai, ihr]
    · cases c with
      | loaded cs => simp [removeNodeFromTree, hai, hcOk, ihc cs rfl, ihr]
      | absent => simp [removeNodeFromTree, hai, hcOk, ihr]
      | unloaded => simp [removeNodeFromTree, hai, hcOk, ihr]

/-! ### Membership-based lookup -/

theorem mem_allNodes_id (t : TreeData) (x : ITreeNode) (hx : x ∈ allNodes t) :
    x.id ∈ allIds t := by
  induction t using treeInd with
  | hnil => simp [allNodes] at hx
  | hcons n rest ihc ihr =>
    obtain ⟨a, nm, c, e, h, p⟩ := n
    cases c with
    | loaded cs =>
      simp [allNodes] at hx
      rcases hx with rfl | hcs | hrest
      · simp [allIds]
      · simp [allIds]
        right
        left
        exact ihc cs rfl hcs
      · simp [allIds]
        right
        right
        exact ihr hrest
    | absent =>
      simp [allNodes] at hx
      rcases hx with rfl | hrest
      · simp [allIds]
      · simp [allIds]
        right
        exact ihr hrest
    | unloaded =>
      simp [allNodes] at hx
      rcases hx with rfl | hrest
      · simp [allIds]
      · simp [allIds]
        right
        exact ihr hrest

theorem find_of_mem_allNodes (t : TreeData) (x : ITreeNode) :
    (allIds t).Nodup → x ∈ allNodes t → findNodeDeepCopy t x.id = some x := by
  induction t using treeInd with
  | hnil =>
    intro _ hx
    simp [allNodes] at hx
  | hcons n rest ihc ihr =>
    intro hnd hx
    obtain ⟨a, nm, c, e, h, p⟩ := n
    cases c with
    | loaded cs =>
      simp only [allIds] at hnd
      rw [List.nodup_cons] at hnd
      obtain ⟨hamem, hnd2⟩ := hnd
      rw [List.nodup_append] at hnd2
      obtain ⟨hndcs, hndrest, hdisj⟩ := hnd2
      simp only [List.mem_append] at hamem
      push_neg at hamem
      obtain ⟨hacs, harest⟩ := hamem
      simp [allNodes] at hx
      rcases hx with rfl | hcs | hrest
      · exact findNodeDeepCopy_cons_self _ _ _ (by simp)
      · have hid := mem_allNodes_id cs x hcs
        have hax : ¬ a = x.id := fun hh => hacs (hh ▸ hid)
        simp [findNodeDeepCopy, hax, ihc cs rfl hndcs hcs]
      · have hid := mem_allNodes_id rest x hrest
        have hax : ¬ a = x.id := fun hh => harest (hh ▸ hid)
        have hcsnone : findNodeDeepCopy cs x.id = none :=
          (findNodeDeepCopy_none_iff cs x.id).mpr (fun hh => hdisj hh hid)
        simp [findNodeDeepCopy, hax, hcsnone, ihr hndrest hrest]
    | absent =>
      simp only [allIds] at hnd
      rw [List.nodup_cons] at hnd
      obtain ⟨hamem, hndrest⟩ := hnd
      simp only [List.nil_append] at hamem hndrest
      simp [allNodes] at hx
      rcases hx with rfl | hrest
      · exact findNodeDeepCopy_cons_self _ _ _ (by simp)
      · have hid := mem_allNodes_id rest x hrest
        have hax : ¬ a = x.id := fun hh => hamem (hh ▸ hid)
        simp [findNodeDeepCopy, hax, ihr hndrest hrest]
    | unloaded =>
      simp only [allIds] at hnd
      rw [List.nodup_cons] at hnd
      obtain ⟨hamem, hndrest⟩ := hnd
      simp only [List.nil_append] at hamem hndrest
      simp [allNodes] at hx
      rcases hx with rfl | hrest
      · exact findNodeDeepCopy_cons_self _ _ _ (by simp)
      · have hid := mem_allNodes_id rest x hrest
        have hax : ¬ a = x.id := fun hh => hamem (hh ▸ hid)
        simp [findNodeDeepCopy, hax, ihr hndrest hrest]

/-! ### Lemmas about the expansion-gated lookup -/

theorem findLoop_parent_spec (tl : TreeData) (s : String) :
    ∀ (parent : Option ITreeNode) (siblings : List ITreeNode) (k : Nat) (loc : NodeLoc),
      findLoop tl s parent siblings k = some loc →
      (loc.parent = parent ∧ loc.siblings = siblings ∧ k ≤ loc.index ∧
        tl[loc.index - k]? = some loc.node)
      ∨ (∃ par cs, loc.parent = some par ∧ par.children = ChildrenState.loaded cs ∧
          par.isExpanded = true ∧ loc.siblings = cs ∧ cs[loc.index]? = some loc.node) := by
  induction tl using treeInd with
  | hnil =>
    intro parent siblings k loc hfl
    simp [findLoop] at hfl
  | hcons n rest ihc ihr =>
    intro parent siblings k loc hfl
    obtain ⟨a, nm, c, e, h, p⟩ := n
    by_cases hai : a = s
    · subst hai
      cases c <;> cases e <;>
        · simp [findLoop] at hfl
          subst hfl
          left
          exact ⟨rfl, rfl, Nat.le_refl k, by simp⟩
    · cases c with
      | loaded cs =>
        cases e with
        | true =>
          rcases hin : findLoop cs s (some (ITreeNode.mk a nm (ChildrenState.loaded cs) true h p)) cs 0
            with _ | found
          · simp [findLoop, hai, hin] at hfl
            rcases ihr parent siblings (k + 1) loc hfl with hl | hr
            · obtain ⟨h1, h2, h3, h4⟩ := hl
              left
              refine ⟨h1, h2, by omega, ?_⟩
              have hix : loc.index - k = (loc.index - (k + 1)) + 1 := by omega
              rw [hix]
              simpa using h4
            · right
              exact hr
          · simp [findLoop, hai, hin] at hfl
            subst hfl
            rcases ihc cs rfl (some (ITreeNode.mk a nm (ChildrenState.loaded cs) true h p)) cs 0
                found hin with hl | hr
            · obtain ⟨h1, h2, h3, h4⟩ := hl
              right
              exact ⟨_, cs, h1, by simp, by simp, h2, by simpa using h4⟩
            · right
              exact hr
        | false =>
          simp [findLoop, hai] at hfl
          rcases ihr parent siblings (k + 1) loc hfl with hl | hr
          · obtain ⟨h1, h2, h3, h4⟩ := hl
            left
            refine ⟨h1, h2, by omega, ?_⟩
            have hix : loc.index - k = (loc.index - (k + 1)) + 1 := by omega
            rw [hix]
            simpa using h4
          · right
            exact hr
      | absent =>
        simp [findLoop, hai] at hfl
        rcases ihr parent siblings (k + 1) loc hfl with hl | hr
        · obtain ⟨h1, h2, h3, h4⟩ := hl
          left
          refine ⟨h1, h2, by omega, ?_⟩
          have hix : loc.index - k = (loc.index - (k + 1)) + 1 := by omega
          rw [hix]
          simpa using h4
        · right
          exact hr
      | unloaded =>
        simp [findLoop, hai] at hfl
        rcases ihr parent siblings (k + 1) loc hfl with hl | hr
        · obtain ⟨h1, h2, h3, h4⟩ := hl
          left
          refine ⟨h1, h2, by omega, ?_⟩
          have hix : loc.index - k = (loc.index - (k + 1)) + 1 := by omega
          rw [hix]
          simpa using h4
        · right
          exact hr

theorem findLoop_isSome_iff (tl : TreeData) (s : String) :
    ∀ (parent : Option ITreeNode) (siblings : List ITreeNode) (k : Nat),
      (findLoop tl s parent siblings k).isSome = true ↔ s ∈ visibleIds tl := by
  induction tl using treeInd with
  | hnil =>
    intro parent siblings k
    simp [findLoop, visibleIds]
  | hcons n rest ihc ihr =>
    intro parent siblings k
    obtain ⟨a, nm, c, e, h, p⟩ := n
    by_cases hai : a = s
    · subst hai
      cases c <;> cases e <;> simp [findLoop, visibleIds]
    · have hsa : ¬ s = a := fun hh => hai hh.symm
      cases c with
      | loaded cs =>
        cases e with
        | true =>
          rcases hin : findLoop cs s
              (some (ITreeNode.mk a nm (ChildrenState.loaded cs) true h p)) cs 0
            with _ | found
          · have hvis : s ∉ visibleIds cs := by
              have hiff := ihc cs rfl
                (some (ITreeNode.mk a nm (ChildrenState.loaded cs) true h p)) cs 0
              rw [hin] at hiff
              simpa using hiff
            simp [findLoop, hai, hin, visibleIds, hsa, hvis, ihr parent siblings (k + 1)]
          · have hvis : s ∈ visibleIds cs := by
              have hiff := ihc cs rfl
                (some (ITreeNode.mk a nm (ChildrenState.loaded cs) true h p)) cs 0
              rw [hin] at hiff
              simpa using hiff
            simp [findLoop, hai, hin, visibleIds, hsa, hvis]
        | false =>
          simp [findLoop, hai, visibleIds, hsa, ihr parent siblings (k + 1)]
      | absent =>
        simp [findLoop, hai, visibleIds, hsa, ihr parent siblings (k + 1)]
      | unloaded =>
        simp [findLoop, hai, visibleIds, hsa, ihr parent siblings (k + 1)]

/-! ### Lemmas about the allocation-instrumented update -/

theorem updateNodeInTreeI_fst (t : TreeData) (i : String) (f : ITreeNode → ITreeNode) :
    (updateNodeInTreeI t i f).map Prod.fst = updateNodeInTree t i f := by
  induction t using treeInd with
  | hnil => simp [updateNodeInTreeI, updateNodeInTree]
  | hcons n rest ihc ihr =>
    obtain ⟨a, nm, c, e, h, p⟩ := n
    by_cases hai : a = i
    · cases c <;> simp [updateNodeInTreeI, updateNodeInTree, hai, ihr]
    · cases c with
      | loaded cs => simp [updateNodeInTreeI, updateNodeInTree, hai, ihc cs rfl, ihr]
      | absent => simp [updateNodeInTreeI, updateNodeInTree, hai, ihr]
      | unloaded => simp [updateNodeInTreeI, updateNodeInTree, hai, ihr]

theorem updateNodeInTreeI_flag (i : String) (f : ITreeNode → ITreeNode) :
    ∀ (t : TreeData) (k : Nat) (n : ITreeNode), t[k]? = some n →
      ((n.id ≠ i ∧ ∀ cs, n.children ≠ ChildrenState.loaded cs) →
        (updateNodeInTreeI t i f)[k]? = some (n, false)) ∧
      ((n.id = i ∨ ∃ cs, n.children = ChildrenState.loaded cs) →
        ∃ m, (updateNodeInTreeI t i f)[k]? = some (m, true)) := by
  intro t
  induction t with
  | nil =>
    intro k n hk
    simp at hk
  | cons node rest ih =>
    intro k n hk
    cases k with
    | zero =>
      simp at hk
      subst hk
      obtain ⟨a, nm, c, e, h, p⟩ := node
      constructor
      · rintro ⟨hid, hnl⟩
        simp only [ITreeNode.id_mk] at hid
        cases c with
        | loaded cs => exact (hnl cs (by simp)).elim
        | absent => simp [updateNodeInTreeI, hid]
        | unloaded => simp [updateNodeInTreeI, hid]
      · rintro (hid | ⟨cs1, hcs⟩)
        · simp only [ITreeNode.id_mk] at hid
          cases c <;> simp [updateNodeInTreeI, hid]
        · simp only [ITreeNode.children_mk] at hcs
          subst hcs
          by_cases hid : a = i <;> simp [updateNodeInTreeI, hid]
    | succ k =>
      simp at hk
      obtain ⟨a, nm, c, e, h, p⟩ := node
      have hih := ih k n hk
      cases c <;> by_cases hid : a = i <;> simp [updateNodeInTreeI, hid] <;>
        exact ⟨fun h1 h2 => hih.1 ⟨h1, h2⟩, hih.2⟩

/-! ### Branch lemmas for `handleDrop` and staged evaluations -/

theorem handleDrop_eq_some (tree : TreeData) (dragged : DragItem) (target : Option String)
    (pos : DropPos) (hne : target ≠ some dragged.id) :
    handleDrop tree (some dragged) target pos = (handleDropTree tree dragged target pos, none) := by
  simp [handleDrop, hne]

theorem handleDropTree_child_notfound (tree : TreeData) (dragged : DragItem) (tid : String)
    (dn : ITreeNode) (h0 : tid ≠ "")
    (h1 : findNodeDeepCopy tree dragged.id = some dn)
    (h2 : isAncestor dragged.id tid tree = false)
    (h3 : findNodeAndLocation (removeNodeFromTree tree dragged.id) (some tid) = none) :
    handleDropTree tree dragged (some tid) DropPos.child
      = removeNodeFromTree tree dragged.id := by
  simp [handleDropTree, h1, h2, h3, h0, truthyId, isChildPos]

theorem handleDropTree_sibling_notfound (tree : TreeData) (dragged : DragItem) (tid : String)
    (dn : ITreeNode) (pos : DropPos) (h0 : tid ≠ "") (hpos : isChildPos pos = false)
    (h1 : findNodeDeepCopy tree dragged.id = some dn)
    (h2 : isAncestor dragged.id tid tree = false)
    (h3 : findNodeAndLocation (removeNodeFromTree tree dragged.id) (some tid) = none) :
    handleDropTree tree dragged (some tid) pos = [withParentId dn none] := by
  simp [handleDropTree, h1, h2, h3, h0, hpos, truthyId, spliceInsert]

theorem handleDropTree_above_found (tree : TreeData) (dragged : DragItem) (tid : String)
    (dn : ITreeNode) (loc : NodeLoc) (par : ITreeNode)
    (h0 : tid ≠ "") (hpid : par.id ≠ "")
    (h1 : findNodeDeepCopy tree dragged.id = some dn)
    (h2 : isAncestor dragged.id tid tree = false)
    (h3 : findNodeAndLocation (removeNodeFromTree tree dragged.id) (some tid) = some loc)
    (h4 : loc.parent = some par) :
    handleDropTree tree dragged (some tid) DropPos.above
      = updateNodeInTree (removeNodeFromTree tree dragged.id) par.id
          (fun parentNode => withChildrenHasChildren parentNode
            (ChildrenState.loaded (spliceInsert (childrenArray par.children) loc.index
              (withParentId dn (some par.id)))) true) := by
  simp [handleDropTree, h1, h2, h3, h4, h0, hpid, truthyId, isChildPos]

theorem exT1_find_a : findNodeDeepCopy exT1 "a" = some exC1a := by
  simp [findNodeDeepCopy, exT1, exC1r, exC1a]

theorem exT1_locA : findNodeAndLocation exT1 (some "a") = none := by
  simp [findNodeAndLocation, findLoop, exT1, exC1r]

theorem exT1_isAncestor : isAncestor "a" "d" exT1 = false := by
  simp only [isAncestor, exT1_locA]

theorem exT1_remove_a : removeNodeFromTree exT1 "a"
    = [ITreeNode.mk "r" "R" (ChildrenState.loaded []) false false none] := by
  simp [removeNodeFromTree, exT1, exC1r, exC1a]

theorem exT1_locD : findNodeAndLocation
    [ITreeNode.mk "r" "R" (ChildrenState.loaded []) false false none] (some "d") = none := by
  simp [findNodeAndLocation, findLoop]

theorem exT2_find_x : findNodeDeepCopy exT2 "x" = some exC2x := by
  simp [findNodeDeepCopy, exT2, exC2x]

theorem exT2_locX : findNodeAndLocation exT2 (some "x") = some ⟨exC2x, none, 0, []⟩ := by
  simp [findNodeAndLocation, findLoop, exT2, exC2x]

theorem exT2_isAncestor : isAncestor "x" "zzz" exT2 = false := by
  simp only [isAncestor, exT2_locX]
  simp [findDescendant, exC2x]

theorem exT2_remove_x : removeNodeFromTree exT2 "x" = [exC2y] := by
  simp [removeNodeFromTree, exT2, exC2x, exC2y]

theorem exT2_locZ : findNodeAndLocation [exC2y] (some "zzz") = none := by
  simp [findNodeAndLocation, findLoop, exC2y]

theorem exC2x_withParent : withParentId exC2x none = exC2x := by
  simp [withParentId, exC2x]

theorem exT8_find_b : findNodeDeepCopy exT8 "b" = some exC8b := by
  simp [findNodeDeepCopy, exT8, exC8a, exC8b]

theorem exT8_locB : findNodeAndLocation exT8 (some "b")
    = some ⟨exC8b, some exC8a, 0, [exC8b, exC8c]⟩ := by
  simp [findNodeAndLocation, findLoop, exT8, exC8a, exC8b]

theorem exT8_isAncestor : isAncestor "b" "c" exT8 = false := by
  simp only [isAncestor, exT8_locB]
  simp [findDescendant, exC8b]

theorem exT8_remove_b : removeNodeFromTree exT8 "b"
    = [ITreeNode.mk "a" "A" (ChildrenState.loaded [exC8c]) true true none] := by
  simp [removeNodeFromTree, exT8, exC8a, exC8b, exC8c]

theorem exT8_loc_c : findNodeAndLocation
    [ITreeNode.mk "a" "A" (ChildrenState.loaded [exC8c]) true true none] (some "c")
    = some ⟨exC8c, some (ITreeNode.mk "a" "A" (ChildrenState.loaded [exC8c]) true true none),
        0, [exC8c]⟩ := by
  simp [findNodeAndLocation, findLoop, exC8c]

theorem exC8b_withParent : withParentId exC8b (some "a") = exC8b := by
  simp [withParentId, exC8b]

theorem exT8_update_a : updateNodeInTree
    [ITreeNode.mk "a" "A" (ChildrenState.loaded [exC8c]) true true none] "a"
    (fun parentNode =>
      withChildrenHasChildren parentNode (ChildrenState.loaded [exC8b, exC8c]) true)
    = exT8 := by
  simp [updateNodeInTree, withChildrenHasChildren, exT8, exC8a]

/-! ### The claims -/

/-- C1: the claim says a drop of node A onto any of its descendants D leaves
the tree unchanged (and clears the drag state) even when A lies under a
collapsed ancestor.  The code violates it: with dragged node "a" hidden under
the collapsed root "r", the expansion-gated lookup inside `isAncestor` misses
"a", the cycle guard passes, and the drop removes the subtree of "a" from the
tree.  This theorem evaluates the code at the failing input: "d" is a
descendant of "a", yet the drop yields a tree in which "a" and "d" are gone. -/
theorem handleDrop_hidden_descendant_mutates :
    findDescendant (childrenArray exC1a.children) "d" = true
    ∧ handleDrop exT1 (some ⟨"a", some "r"⟩) (some "d") DropPos.child
        = ([ITreeNode.mk "r" "R" (ChildrenState.loaded []) false false none], none)
    ∧ (handleDrop exT1 (some ⟨"a", some "r"⟩) (some "d") DropPos.child).1 ≠ exT1 := by
  have heval : handleDrop exT1 (some ⟨"a", some "r"⟩) (some "d") DropPos.child
      = ([ITreeNode.mk "r" "R" (ChildrenState.loaded []) false false none], none) := by
    rw [handleDrop_eq_some _ _ _ _ (by simp)]
    rw [handleDropTree_child_notfound exT1 ⟨"a", some "r"⟩ "d" exC1a (by simp)
      exT1_find_a exT1_isAncestor (by rw [exT1_remove_a]; exact exT1_locD)]
    rw [exT1_remove_a]
  refine ⟨by simp [findDescendant, childrenArray, exC1a, exC1d], heval, ?_⟩
  rw [heval]
  intro hcontra
  have h2 := congrArg countNodes hcontra
  simp [countNodes, exT1, exC1r, exC1a, exC1d] at h2

/-- C2: the claim says a drop whose non-null target id occurs nowhere in the
tree is a silent no-op.  The code violates it: after removing the dragged
node, the sibling-splice branch fails to find the target, leaves the splice
target list empty, and returns a tree consisting of the dragged node alone,
destroying every other node.  This theorem evaluates the code at the failing
input: dragging root "x" onto the absent id "zzz" (position below) returns
the one-node tree ["x"], losing root "y". -/
theorem handleDrop_missing_target_mutates :
    "zzz" ∉ allIds exT2
    ∧ findNodeDeepCopy exT2 "x" = some exC2x
    ∧ handleDrop exT2 (some ⟨"x", none⟩) (some "zzz") DropPos.below = ([exC2x], none)
    ∧ (handleDrop exT2 (some ⟨"x", none⟩) (some "zzz") DropPos.below).1 ≠ exT2 := by
  have heval : handleDrop exT2 (some ⟨"x", none⟩) (some "zzz") DropPos.below
      = ([exC2x], none) := by
    rw [handleDrop_eq_some _ _ _ _ (by simp)]
    rw [handleDropTree_sibling_notfound exT2 ⟨"x", none⟩ "zzz" exC2x DropPos.below (by simp)
      rfl exT2_find_x exT2_isAncestor (by rw [exT2_remove_x]; exact exT2_locZ)]
    rw [exC2x_withParent]
  refine ⟨by simp [allIds, exT2, exC2x, exC2y],
    by simp [findNodeDeepCopy, exT2, exC2x], heval, ?_⟩
  rw [heval]
  intro hcontra
  have h2 := congrArg countNodes hcontra
  simp [countNodes, exT2, exC2x, exC2y] at h2

/-- C3, refuted as stated: in the tree [a, b[c]] with update target "a", the
root entry "b" lies off the root-to-"a" path, yet `updateNodeInTree` rebuilds
it (allocation flag `true`), because the source rebuilds every node with a
loaded children array. -/
theorem updateLocality_refuted : ¬ UpdateLocalityClaim := by
  intro hcl
  have hinst := hcl exT3 "a" (fun q => q) 1 exC3b
    (by simp [allIds, exT3, exC3a, exC3b, exC3c])
    (by simp [exT3])
    (by simp [idsOfNode, allIds, exC3b, exC3c])
  simp [updateNodeInTreeI, exT3, exC3a, exC3b, exC3c] at hinst

/-- C3, amended: erasing the allocation flags of the instrumented update
recovers `updateNodeInTree` exactly, and a root entry is returned by the
no-allocation branch (the identical prior value) precisely when it is not the
target and its children are not a loaded array; every other entry — the
target, and every node with loaded children even off the root-to-target
path — is rebuilt. -/
theorem updateNodeInTreeI_locality (t : TreeData) (i : String) (f : ITreeNode → ITreeNode)
    (k : Nat) (n : ITreeNode) (hk : t[k]? = some n) :
    (updateNodeInTreeI t i f).map Prod.fst = updateNodeInTree t i f
    ∧ ((n.id ≠ i ∧ ∀ cs, n.children ≠ ChildrenState.loaded cs) →
        (updateNodeInTreeI t i f)[k]? = some (n, false))
    ∧ ((n.id = i ∨ ∃ cs, n.children = ChildrenState.loaded cs) →
        ∃ m, (updateNodeInTreeI t i f)[k]? = some (m, true)) :=
  ⟨updateNodeInTreeI_fst t i f,
   (updateNodeInTreeI_flag i f t k n hk).1,
   (updateNodeInTreeI_flag i f t k n hk).2⟩

/-- Witness for the amended C3 at a concrete input: entry 0 of `exT3` is not
the target "b" and has no loaded children, so it is returned unrebuilt. -/
theorem updateNodeInTreeI_locality_witness :
    exT3[0]? = some exC3a
    ∧ (updateNodeInTreeI exT3 "b" (fun q => q))[0]? = some (exC3a, false) :=
  ⟨by simp [exT3],
   (updateNodeInTreeI_locality exT3 "b" (fun q => q) 0 exC3a (by simp [exT3])).2.1
     ⟨by simp [exC3a], by simp [exC3a]⟩⟩

/-- C4, refuted as stated: removal of an absent id is not the identity on
every tree, because `removeNodeFromTree` recomputes `hasChildren` of every
node with loaded children; on a node with loaded-empty children and a stale
`hasChildren = true`, the flag is silently flipped to `false`. -/
theorem removeAbsentNoop_refuted : ¬ RemoveAbsentNoopClaim := by
  intro hcl
  have hinst := hcl exT4 "z" (by simp [allIds, exT4, exC4a])
  rw [show removeNodeFromTree exT4 "z"
      = [ITreeNode.mk "a" "A" (ChildrenState.loaded []) false false none] from by
    simp [removeNodeFromTree, exT4, exC4a]] at hinst
  simp [exT4, exC4a] at hinst

/-- C4, amended: on a tree whose `hasChildren` flags are already consistent
with the loaded children (`hcOk`), removing an absent id returns the tree
unchanged. -/
theorem removeNodeFromTree_absent_noop (t : TreeData) (i : String) (hok : hcOk t = true)
    (hni : i ∉ allIds t) : removeNodeFromTree t i = t :=
  removeNodeFromTree_absent_eq t i hok hni

/-- Witness for the amended C4 at a concrete input. -/
theorem removeNodeFromTree_absent_noop_witness :
    hcOk exT8 = true ∧ "zzz" ∉ allIds exT8 ∧ removeNodeFromTree exT8 "zzz" = exT8 :=
  ⟨by simp [hcOk, exT8, exC8a, exC8b, exC8c],
   by simp [allIds, exT8, exC8a, exC8b, exC8c],
   removeNodeFromTree_absent_noop exT8 "zzz"
     (by simp [hcOk, exT8, exC8a, exC8b, exC8c])
     (by simp [allIds, exT8, exC8a, exC8b, exC8c])⟩

/-- C5, refuted as stated: on a tree with a duplicated id, removing the id of
a present node X removes every node carrying that id, so the node count drops
by more than the size of X's subtree. -/
theorem removeCascade_refuted : ¬ RemoveCascadeClaim := by
  intro hcl
  have hinst := (hcl exT5 exC5a (by simp [allNodes, exT5, exC5a, exC5b])).1
  simp [removeNodeFromTree, countNodes, nodeSize, exT5, exC5a, exC5b] at hinst

/-- C5, amended: on a tree with globally unique ids (the spec's id-uniqueness
invariant), removing a present node X removes exactly X and its descendants:
the node count drops by the size of X's subtree, an id survives iff it was
present and not in X's subtree, and no node outside X's subtree is removed. -/
theorem removeNodeFromTree_cascade (t : TreeData) (x : ITreeNode)
    (hnd : (allIds t).Nodup) (hx : x ∈ allNodes t) :
    countNodes (removeNodeFromTree t x.id) = countNodes t - nodeSize x
    ∧ (∀ j, j ∈ allIds (removeNodeFromTree t x.id) ↔ (j ∈ allIds t ∧ j ∉ idsOfNode x)) :=
  removeCascade_of_find t x.id x hnd (find_of_mem_allNodes t x hnd hx)

/-- Witness for the amended C5 at a concrete input: removing leaf "b" from
the three-node tree leaves two nodes. -/
theorem removeNodeFromTree_cascade_witness :
    (allIds exT8).Nodup ∧ exC8b ∈ allNodes exT8
    ∧ countNodes (removeNodeFromTree exT8 exC8b.id) = countNodes exT8 - nodeSize exC8b :=
  ⟨by simp [allIds, exT8, exC8a, exC8b, exC8c],
   by simp [allNodes, exT8, exC8a, exC8b, exC8c],
   (removeNodeFromTree_cascade exT8 exC8b
     (by simp [allIds, exT8, exC8a, exC8b, exC8c])
     (by simp [allNodes, exT8, exC8a, exC8b, exC8c])).1⟩

/-- C6: `addNodeToTree` with a null parent id appends the node (with parent
pointer nulled) to the end of the root sequence; with a parent id absent from
the tree it returns the tree unchanged; with a parent id present it appends
the new node to that parent's children — coercing an absent or unloaded
children state to the empty sequence — and sets the parent's `hasChildren`
and `isExpanded` to `true`, preserving its other fields. -/
theorem addNodeToTree_spec (t : TreeData) (n : ITreeNode) :
    addNodeToTree t none n = t ++ [withParentId n none]
    ∧ (∀ pid, pid ∉ allIds t → addNodeToTree t (some pid) n = t)
    ∧ (∀ pid par, findNodeDeepCopy t pid = some par →
        findNodeDeepCopy (addNodeToTree t (some pid) n) pid
          = some (ITreeNode.mk par.id par.name
              (ChildrenState.loaded
                (childrenArray par.children ++ [withParentId n (some par.id)]))
              true true par.parentId)) := by
  refine ⟨rfl, ?_, ?_⟩
  · intro pid hpid
    exact updateNodeInTree_absent t pid (appendChildUpdater n) hpid
  · intro pid par hfind
    have hpres : ∀ q, (appendChildUpdater n q).id = q.id := by
      intro q
      obtain ⟨qa, qn, qc, qe, qh, qp⟩ := q
      simp [appendChildUpdater]
    have hres := findNodeDeepCopy_updateNodeInTree t pid (appendChildUpdater n) hpres par hfind
    have hmk : appendChildUpdater n par
        = ITreeNode.mk par.id par.name
            (ChildrenState.loaded
              (childrenArray par.children ++ [withParentId n (some par.id)]))
            true true par.parentId := by
      obtain ⟨qa, qn, qc, qe, qh, qp⟩ := par
      simp [appendChildUpdater]
    simp only [addNodeToTree]
    rw [hres, hmk]

/-- Witness for C6 at a concrete input: adding under the unloaded parent "a"
coerces its children to the empty sequence, appends the new node, and sets
both flags. -/
theorem addNodeToTree_spec_witness :
    findNodeDeepCopy exT6 "a" = some exC6a
    ∧ findNodeDeepCopy (addNodeToTree exT6 (some "a") exC6n) "a"
        = some (ITreeNode.mk exC6a.id exC6a.name
            (ChildrenState.loaded
              (childrenArray exC6a.children ++ [withParentId exC6n (some exC6a.id)]))
            true true exC6a.parentId) :=
  ⟨by simp [findNodeDeepCopy, exT6, exC6a],
   (addNodeToTree_spec exT6 exC6n).2.2 "a" exC6a (by simp [findNodeDeepCopy, exT6, exC6a])⟩

/-- C7, refuted as stated: for the non-null id `""` the lookup returns no
location even when a node with id `""` sits visibly at the root, because the
JavaScript guard `if (!nodeId)` treats the empty string as falsy. -/
theorem findVisible_refuted : ¬ FindVisibleClaim := by
  intro hcl
  have hinst := (hcl exT7 "").mpr (by simp [visibleIds, exT7, exC7a])
  simp [findNodeAndLocation] at hinst

/-- C7, amended: a null or empty-string id yields no location; for every
non-empty id the lookup returns a location exactly when the id is reachable
from a root through a chain of expanded ancestors with loaded children — in
particular it never descends into the children of a non-expanded node. -/
theorem findNodeAndLocation_visible (t : TreeData) (s : String) :
    findNodeAndLocation t none = none
    ∧ findNodeAndLocation t (some "") = none
    ∧ (s ≠ "" → ((findNodeAndLocation t (some s)).isSome = true ↔ s ∈ visibleIds t)) := by
  refine ⟨rfl, by simp [findNodeAndLocation], ?_⟩
  intro hs
  rw [show findNodeAndLocation t (some s) = findLoop t s none [] 0 from by
    simp [findNodeAndLocation, hs]]
  exact findLoop_isSome_iff t s none [] 0

/-- Witness for the amended C7 at a concrete input: "b" is visible under the
expanded root "a" and is found. -/
theorem findNodeAndLocation_visible_witness :
    ("b" : String) ≠ ""
    ∧ ((findNodeAndLocation exT8 (some "b")).isSome = true ↔ "b" ∈ visibleIds exT8)
    ∧ (findNodeAndLocation exT8 (some "b")).isSome = true := by
  have hmain := (findNodeAndLocation_visible exT8 "b").2.2 (by decide)
  exact ⟨by decide, hmain, hmain.mpr (by simp [visibleIds, exT8, exC8a, exC8b, exC8c])⟩

/-- C8: in the tree [A[B, C]] with A expanded, dragging B onto C with
position "above" returns a tree structurally equal to the input (and clears
the drag state): B is removed, C's post-removal index is 0, and B is spliced
back directly before C. -/
theorem handleDrop_above_adjacent_noop :
    handleDrop exT8 (some ⟨"b", some "a"⟩) (some "c") DropPos.above = (exT8, none) := by
  rw [handleDrop_eq_some _ _ _ _ (by simp)]
  rw [handleDropTree_above_found exT8 ⟨"b", some "a"⟩ "c" exC8b
    ⟨exC8c, some (ITreeNode.mk "a" "A" (ChildrenState.loaded [exC8c]) true true none),
      0, [exC8c]⟩
    (ITreeNode.mk "a" "A" (ChildrenState.loaded [exC8c]) true true none)
    (by simp) (by simp) exT8_find_b exT8_isAncestor
    (by rw [exT8_remove_b]; exact exT8_loc_c)
    rfl]
  rw [exT8_remove_b]
  simp only [ITreeNode.id_mk, ITreeNode.children_mk, childrenArray, spliceInsert,
    exC8b_withParent]
  rw [exT8_update_a]

/-- C9: after removing any id (present or absent), every node of the
resulting tree whose children are a loaded array has `hasChildren` equal to
that array being non-empty — the recomputation normalizes the flag
everywhere, not only on ancestors of the removed node. -/
theorem removeNodeFromTree_normalizes_hasChildren (t : TreeData) (i : String) :
    hcOk (removeNodeFromTree t i) = true :=
  hcOk_removeNodeFromTree t i

/-- C10, refuted as stated: for a root-level match the returned `siblings`
is the defaulted empty sequence, not the root sequence, so
`siblings[index]` is not the found node. -/
theorem locationConsistent_refuted : ¬ LocationConsistentClaim := by
  intro hcl
  have hinst := hcl exT10 (some "a") ⟨exC10a, none, 0, []⟩
    (by simp [findNodeAndLocation, findLoop, exT10, exC10a])
  simpa using hinst.1

/-- C10, amended: every returned location is consistent in the following
sense: when the parent is null, `siblings` is the empty default sequence and
`index` indexes the searched root sequence (`t[index] = node`); when the
parent is non-null, the parent's children are a loaded array, the parent is
expanded, `siblings` is exactly that array, and `siblings[index]` is the
found node. -/
theorem findNodeAndLocation_consistent (t : TreeData) (s : Option String) (loc : NodeLoc)
    (hfl : findNodeAndLocation t s = some loc) :
    (loc.parent = none → loc.siblings = [] ∧ t[loc.index]? = some loc.node)
    ∧ (∀ par, loc.parent = some par →
        ∃ cs, par.children = ChildrenState.loaded cs ∧ par.isExpanded = true
          ∧ loc.siblings = cs ∧ cs[loc.index]? = some loc.node) := by
  match s with
  | none => simp [findNodeAndLocation] at hfl
  | some str =>
    by_cases hstr : str = ""
    · simp [findNodeAndLocation, hstr] at hfl
    · simp only [findNodeAndLocation, hstr, if_false] at hfl
      rcases findLoop_parent_spec t str none [] 0 loc hfl with hl | hr
      · obtain ⟨h1, h2, h3, h4⟩ := hl
        constructor
        · intro _
          exact ⟨h2, by simpa using h4⟩
        · intro par hpar
          rw [h1] at hpar
          cases hpar
      · obtain ⟨par0, cs, h1, h2, h3, h4, h5⟩ := hr
        constructor
        · intro hnone
          rw [h1] at hnone
          cases hnone
        · intro par hpar
          rw [h1] at hpar
          injection hpar with hpar
          subst hpar
          exact ⟨cs, h2, h3, h4, h5⟩

/-- Witness for the amended C10 at a concrete input: the location of "b"
under the expanded root "a". -/
theorem findNodeAndLocation_consistent_witness :
    findNodeAndLocation exT8 (some "b") = some ⟨exC8b, some exC8a, 0, [exC8b, exC8c]⟩
    ∧ ∃ cs, exC8a.children = ChildrenState.loaded cs ∧ exC8a.isExpanded = true
        ∧ [exC8b, exC8c] = cs ∧ cs[(0 : Nat)]? = some exC8b := by
  have hf : findNodeAndLocation exT8 (some "b")
      = some ⟨exC8b, some exC8a, 0, [exC8b, exC8c]⟩ := by
    simp [findNodeAndLocation, findLoop, exT8, exC8a, exC8b, exC8c]
  exact ⟨hf, (findNodeAndLocation_consistent exT8 (some "b")
    ⟨exC8b, some exC8a, 0, [exC8b, exC8c]⟩ hf).2 exC8a rfl⟩
